import Mathlib

/-!
A shallow embedding of the `git_metadata_reader` repository's core data
model and operations (src/heatmap.rs, src/user_commit_info.rs,
src/repository.rs, src/tui.rs), together with theorems settling the
specification's claims about them.

Modelling conventions:
* `chrono::NaiveDate` becomes a `Date` structure of year/month/day with the
  chronological (lexicographic) order; `NaiveDate::from_ymd_opt` becomes an
  `Option`-returning constructor that checks calendar validity.
* Rust `HashMap`s become association lists with unique keys; `entry(k).or_insert(0) += c`
  becomes `alInsertAdd`, lookups with default become `alGet`.
* `u32` counters become `Nat` (no claim here depends on wrap-around).
* The ambient clock (`Utc::now().date_naive().year()`) becomes an explicit
  `Int` parameter threaded through the functions that read it.
* Rust's stable `sort_by` becomes a stable insertion sort over the same
  comparator; `to_lowercase` / `contains` / `push` / `pop` on `String`s
  become the corresponding character-list operations.
-/

namespace GitMeta

/-- Model of `chrono::NaiveDate`: a year/month/day triple.  Validity of the
month/day combination is checked by `from_ymd_opt`, as in chrono. -/
structure Date where
  year : Int
  month : Nat
  day : Nat
deriving DecidableEq, Repr

/-- Chronological comparison of dates (lexicographic on year, month, day),
matching `chrono::NaiveDate`'s `Ord`. -/
def Date.ltb (a b : Date) : Bool :=
  if a.year ≠ b.year then a.year < b.year
  else if a.month ≠ b.month then a.month < b.month
  else a.day < b.day

/-- Three-way chronological comparison of dates, matching
`chrono::NaiveDate`'s `Ord::cmp`. -/
def Date.cmp (a b : Date) : Ordering :=
  match compare a.year b.year with
  | Ordering.eq =>
    match compare a.month b.month with
    | Ordering.eq => compare a.day b.day
    | o => o
  | o => o

/-- Gregorian leap-year test, as used by chrono's calendar validity. -/
def isLeapYear (y : Int) : Bool :=
  (y % 4 == 0 && y % 100 != 0) || y % 400 == 0

/-- Number of days in a month of a given year (month assumed in 1..12 by
callers; validity of the month itself is checked by `dateValid`). -/
def daysInMonth (y : Int) (m : Nat) : Nat :=
  if m = 2 then (if isLeapYear y then 29 else 28)
  else if m = 4 ∨ m = 6 ∨ m = 9 ∨ m = 11 then 30
  else 31

/-- Calendar validity of a year/month/day combination. -/
def dateValid (y : Int) (m d : Nat) : Bool :=
  decide (1 ≤ m) && decide (m ≤ 12) && decide (1 ≤ d) && decide (d ≤ daysInMonth y m)

/-- Model of `chrono::NaiveDate::from_ymd_opt`. -/
def from_ymd_opt (y : Int) (m d : Nat) : Option Date :=
  if dateValid y m d then some ⟨y, m, d⟩ else none

/-- Serial day number of a date (proleptic Gregorian, epoch 1970-01-01),
used to model `chrono`'s subtraction of dates in `days_between`. -/
def Date.toDays (dt : Date) : Int :=
  let y : Int := if dt.month ≤ 2 then dt.year - 1 else dt.year
  let era : Int := (if y ≥ 0 then y else y - 399) / 400
  let yoe : Int := y - era * 400
  let m : Int := dt.month
  let doy : Int := (153 * (if m > 2 then m - 3 else m + 9) + 2) / 5 + dt.day - 1
  let doe : Int := yoe * 365 + yoe / 4 - yoe / 100 + doy
  era * 146097 + doe - 719468

/-! ### Association lists modelling `HashMap<NaiveDate, u32>` -/

/-- `*map.entry(date).or_insert(0) += count`: add `c` to the entry at key
`d`, inserting it if absent.  Keys stay unique. -/
def alInsertAdd (l : List (Date × Nat)) (d : Date) (c : Nat) : List (Date × Nat) :=
  match l with
  | [] => [(d, c)]
  | (k, v) :: rest => if k = d then (k, v + c) :: rest else (k, v) :: alInsertAdd rest d c

/-- `*map.get(&date).unwrap_or(&0)`: lookup with default 0. -/
def alGet (l : List (Date × Nat)) (d : Date) : Nat :=
  match l with
  | [] => 0
  | (k, v) :: rest => if k = d then v else alGet rest d

/-- Sum of all the counts stored in a date-count map. -/
def sumCounts (l : List (Date × Nat)) : Nat :=
  (l.map (fun p => p.2)).sum

/-! ### `TimelineData` (src/user_commit_info.rs) -/

/-- Model of `TimelineData`. -/
structure TimelineData where
  commits_by_period : List (Date × Nat)
  total_commits : Nat
  first_commit : Date
  last_commit : Date
deriving DecidableEq, Repr

/-- `TimelineData::default`: empty map, zero total, far-future/far-past
sentinel bounds. -/
def TimelineData.default : TimelineData :=
  { commits_by_period := []
    total_commits := 0
    first_commit := ⟨2099, 1, 1⟩
    last_commit := ⟨1900, 1, 1⟩ }

/-- Model of `TimelineData::add_commit`. -/
def TimelineData.add_commit (t : TimelineData) (date : Date) (commits : Nat) : TimelineData :=
  { commits_by_period := alInsertAdd t.commits_by_period date commits
    total_commits := t.total_commits + commits
    first_commit := if Date.ltb date t.first_commit then date else t.first_commit
    last_commit := if Date.ltb t.last_commit date then date else t.last_commit }

/-- Model of `CommitData` (src/user_commit_info.rs). -/
structure CommitData where
  email : String
  commits : Nat
  first_commit : Date
  last_commit : Date
deriving DecidableEq, Repr

/-- Model of `CommitData::days_between`:
`(last_commit - first_commit).num_days()`. -/
def CommitData.days_between (c : CommitData) : Int :=
  c.last_commit.toDays - c.first_commit.toDays

/-! ### `HeatMapData` (src/heatmap.rs) -/

/-- Model of `HeatMapData`. -/
structure HeatMapData where
  commits_by_date : List (Date × Nat)
  start_date : Date
  end_date : Date
  max_commits : Nat
deriving DecidableEq, Repr

/-- `HeatMapData::default` / `HeatMapData::new`. -/
def HeatMapData.new : HeatMapData :=
  { commits_by_date := []
    start_date := ⟨2099, 1, 1⟩
    end_date := ⟨1900, 1, 1⟩
    max_commits := 0 }

/-- Model of `HeatMapData::add_commits`. -/
def HeatMapData.add_commits (h : HeatMapData) (date : Date) (count : Nat) : HeatMapData :=
  let m := alInsertAdd h.commits_by_date date count
  { commits_by_date := m
    max_commits := max h.max_commits (alGet m date)
    start_date := if Date.ltb date h.start_date then date else h.start_date
    end_date := if Date.ltb h.end_date date then date else h.end_date }

/-- Model of `HeatMapData::get_commits`. -/
def HeatMapData.get_commits (h : HeatMapData) (date : Date) : Nat :=
  alGet h.commits_by_date date

/-- Model of `HeatMapData::get_intensity_level`. -/
def HeatMapData.get_intensity_level (h : HeatMapData) (commits : Nat) : Nat :=
  if commits = 0 then 0
  else if h.max_commits ≤ 4 then min commits 4
  else
    let quartile := h.max_commits / 4
    if commits ≤ quartile then 1
    else if commits ≤ quartile * 2 then 2
    else if commits ≤ quartile * 3 then 3
    else 4

/-- The calendar projection applied to each historical date inside
`HeatMapData::create_from_timeline_data` and `prepare_heatmap_data_from_map`:
`from_ymd_opt(current_year, month, day).unwrap_or(historical_date)`. -/
def projectDate (currentYear : Int) (d : Date) : Date :=
  (from_ymd_opt currentYear d.month d.day).getD d

/-- Model of `HeatMapData::create_from_timeline_data`; the reference year
(read from the clock in the source) is an explicit parameter. -/
def HeatMapData.create_from_timeline_data (currentYear : Int) (t : TimelineData) : HeatMapData :=
  t.commits_by_period.foldl
    (fun heatmap p => heatmap.add_commits (projectDate currentYear p.1) p.2)
    HeatMapData.new

/-- Model of `prepare_heatmap_data_from_map` (src/repository.rs): fold every
author timeline into one global heat map through the same projection. -/
def prepare_heatmap_data_from_map (currentYear : Int)
    (timeline_data : List (String × TimelineData)) : HeatMapData :=
  timeline_data.foldl
    (fun heatmap p =>
      p.2.commits_by_period.foldl
        (fun hm q => hm.add_commits (projectDate currentYear q.1) q.2)
        heatmap)
    HeatMapData.new

/-! ### The aggregation loop (src/repository.rs) -/

/-- One raw event from the event-source adapter: the author identity when
resolvable (`commit.author().email()`) and the commit date when the
timestamp resolves to a single instant. -/
structure RawEvent where
  author : Option String
  timestamp : Option Date
deriving DecidableEq, Repr

/-- Model of `RepositoryConfig`. -/
structure RepositoryConfig where
  max_commits : Option Nat
  since_date : Option Date
  until_date : Option Date
deriving DecidableEq, Repr

/-- Whether the `max_commits` cap is set and already reached
(`commits_processed >= max_commits`). -/
def capReached (config : RepositoryConfig) (processed : Nat) : Bool :=
  match config.max_commits with
  | some m => decide (m ≤ processed)
  | none => false

/-- The per-event filter of the aggregation loop: an event qualifies when it
has a resolvable author and timestamp and its date is not strictly before
`since_date` nor strictly after `until_date`; a qualifying event contributes
its `(email, date)` pair. -/
def qualifies (config : RepositoryConfig) (e : RawEvent) : Option (String × Date) :=
  match e.author, e.timestamp with
  | some email, some date =>
    if (match config.since_date with
        | some s => Date.ltb date s
        | none => false) then none
    else if (match config.until_date with
        | some u => Date.ltb u date
        | none => false) then none
    else some (email, date)
  | _, _ => none

/-- Model of the revwalk loop of `collect_commit_info_polars`: the list of
`(email, date)` rows pushed into the frame, given the events still to
consume and the number of events already counted. -/
def collect_commit_info_polars (config : RepositoryConfig) :
    List RawEvent → Nat → List (String × Date)
  | [], _ => []
  | e :: rest, processed =>
    if capReached config processed then []
    else
      match qualifies config e with
      | some p => p :: collect_commit_info_polars config rest (processed + 1)
      | none => collect_commit_info_polars config rest processed

/-- Generic association-list lookup (models `HashMap::get`). -/
def alFind {α : Type} (l : List (String × α)) (k : String) : Option α :=
  match l with
  | [] => none
  | (k', v) :: rest => if k' = k then some v else alFind rest k

/-- `timeline_map.entry(email).or_default()` followed by an update: apply
`f` to the entry at key `k`, inserting `f TimelineData.default` if absent. -/
def alUpdateT (l : List (String × TimelineData)) (k : String)
    (f : TimelineData → TimelineData) : List (String × TimelineData) :=
  match l with
  | [] => [(k, f TimelineData.default)]
  | (k', v) :: rest => if k' = k then (k', f v) :: rest else (k', v) :: alUpdateT rest k f

/-- Model of `convert_timeline_df_to_timeline_data_map`: fold grouped
`(email, date, commits_on_date)` rows into per-author timelines via
`add_commit`. -/
def convert_timeline_df_to_timeline_data_map
    (rows : List (String × Date × Nat)) : List (String × TimelineData) :=
  rows.foldl
    (fun m r => alUpdateT m r.1 (fun t => t.add_commit r.2.1 r.2.2))
    []

/-! ### View state (src/tui.rs) -/

/-- Model of `SortColumn`. -/
inductive SortColumn where
  | Email
  | Commits
  | FirstCommit
  | LastCommit
  | DaysBetween
deriving DecidableEq, Repr

/-- Model of `SortDirection`. -/
inductive SortDirection where
  | Ascending
  | Descending
deriving DecidableEq, Repr

/-- Model of `RepositoryData`. -/
structure RepositoryData where
  commit_data : List CommitData
  heatmap_data : HeatMapData
  repo_path : String
  author_timeline_data : List (String × TimelineData)
deriving DecidableEq, Repr

/-- The key codes `AppState::handle_key_event` distinguishes; every other
`crossterm` key is `other`. -/
inductive KeyCode where
  | Char (c : Char)
  | Up
  | Down
  | Enter
  | Backspace
  | Esc
  | other
deriving DecidableEq, Repr

/-- Model of `AppState`.  The per-author heat-map cache is an association
list keyed by author email. -/
structure AppState where
  repository_data : RepositoryData
  selected_row : Nat
  sort_column : SortColumn
  sort_direction : SortDirection
  filter_text : String
  show_search : Bool
  error_message : Option String
  selected_author : Option String
  author_heatmap_data : List (String × HeatMapData)
deriving DecidableEq, Repr

/-- Model of `AppState::new`. -/
def AppState.new (repository_data : RepositoryData) : AppState :=
  { repository_data := repository_data
    selected_row := 0
    sort_column := SortColumn.FirstCommit
    sort_direction := SortDirection.Ascending
    filter_text := ""
    show_search := false
    error_message := none
    selected_author := none
    author_heatmap_data := [] }

/-- Character-wise lowercasing, modelling Rust's `str::to_lowercase`
(restricted to one-to-one case folding). -/
def strToLower (s : String) : String :=
  ⟨s.data.map Char.toLower⟩

/-- Rust `String::push`. -/
def strPush (s : String) (c : Char) : String :=
  ⟨s.data ++ [c]⟩

/-- Rust `String::pop` (we only need the mutated string, not the popped
character). -/
def strPop (s : String) : String :=
  ⟨s.data.dropLast⟩

/-- `pat` occurs as a contiguous subsequence of `l`, modelling Rust's
`str::contains` at character granularity. -/
def listIsInfixOf (pat : List Char) : List Char → Bool
  | [] => pat.isPrefixOf []
  | c :: rest => pat.isPrefixOf (c :: rest) || listIsInfixOf pat rest

/-- The filter predicate of `AppState::filtered_data`: keep every entry when
the filter text is empty, otherwise keep entries whose lowercased email
contains the lowercased filter text. -/
def passesFilter (ft : String) (d : CommitData) : Bool :=
  if ft = "" then true
  else listIsInfixOf (strToLower ft).data (strToLower d.email).data

/-- Model of `AppState::filtered_data`. -/
def AppState.filtered_data (s : AppState) : List CommitData :=
  s.repository_data.commit_data.filter (passesFilter s.filter_text)

/-- The comparator `sorted_data` passes to `sort_by`, including the
direction reversal. -/
def cmpCommitData (col : SortColumn) (dir : SortDirection) (a b : CommitData) : Ordering :=
  let comparison :=
    match col with
    | SortColumn.Email => compare a.email b.email
    | SortColumn.Commits => compare a.commits b.commits
    | SortColumn.FirstCommit => Date.cmp a.first_commit b.first_commit
    | SortColumn.LastCommit => Date.cmp a.last_commit b.last_commit
    | SortColumn.DaysBetween => compare a.days_between b.days_between
  match dir with
  | SortDirection.Ascending => comparison
  | SortDirection.Descending => comparison.swap

/-- `a` may stay before `b` under the comparator (not strictly greater). -/
def leOfCmp (c : Ordering) : Bool :=
  match c with
  | Ordering.gt => false
  | _ => true

/-- Stable insertion into a sorted list. -/
def sortInsert (le : CommitData → CommitData → Bool) (a : CommitData) :
    List CommitData → List CommitData
  | [] => [a]
  | b :: bs => if le a b then a :: b :: bs else b :: sortInsert le a bs

/-- Stable insertion sort; extensionally equal to Rust's stable
`slice::sort_by` for the total preorders used here. -/
def stableSort (le : CommitData → CommitData → Bool) :
    List CommitData → List CommitData
  | [] => []
  | a :: as => sortInsert le a (stableSort le as)

/-- Model of `AppState::sorted_data`. -/
def AppState.sorted_data (s : AppState) : List CommitData :=
  stableSort (fun a b => leOfCmp (cmpCommitData s.sort_column s.sort_direction a b))
    (AppState.filtered_data s)

/-- Model of `AppState::get_or_create_author_heatmap`; returns the updated
state together with the heat map the borrowed reference points at.  The
reference year of the projection is the explicit `currentYear` parameter. -/
def AppState.get_or_create_author_heatmap (currentYear : Int) (s : AppState)
    (author_email : String) : AppState × HeatMapData :=
  let s' :=
    if (alFind s.author_heatmap_data author_email).isSome then s
    else
      match alFind s.repository_data.author_timeline_data author_email with
      | some author_timeline =>
        { s with author_heatmap_data :=
            (author_email, HeatMapData.create_from_timeline_data currentYear author_timeline)
              :: s.author_heatmap_data }
      | none =>
        { s with author_heatmap_data :=
            (author_email, HeatMapData.new) :: s.author_heatmap_data }
  (s', (alFind s'.author_heatmap_data author_email).getD HeatMapData.new)

/-- Model of `AppState::handle_key_event`.  The Rust `match` puts the
`Char('q') | Esc` and `Char('/')` arms before the generic `Char(c)` arm;
matching first on the constructor and then on the character value preserves
exactly that arm order. -/
def AppState.handle_key_event (currentYear : Int) (s : AppState) (key : KeyCode) :
    AppState × Bool :=
  match key with
  | KeyCode.Esc => (s, false)
  | KeyCode.Up =>
    (if s.selected_row > 0 then { s with selected_row := s.selected_row - 1 } else s, true)
  | KeyCode.Down =>
    (if s.selected_row < (AppState.sorted_data s).length - 1 then
        { s with selected_row := s.selected_row + 1 }
      else s,
      true)
  | KeyCode.Enter =>
    if s.show_search then ({ s with show_search := false }, true)
    else
      match (AppState.sorted_data s)[s.selected_row]? with
      | none => (s, true)
      | some selected_data =>
        match s.selected_author with
        | some current_email =>
          if current_email = selected_data.email then
            ({ s with selected_author := none }, true)
          else
            ({ (AppState.get_or_create_author_heatmap currentYear s selected_data.email).1 with
                selected_author := some selected_data.email }, true)
        | none =>
          ({ (AppState.get_or_create_author_heatmap currentYear s selected_data.email).1 with
              selected_author := some selected_data.email }, true)
  | KeyCode.Backspace =>
    (if s.show_search then { s with filter_text := strPop s.filter_text } else s, true)
  | KeyCode.Char c =>
    if c = 'q' then (s, false)
    else if c = '/' then ({ s with show_search := true, filter_text := "" }, true)
    else if s.show_search then ({ s with filter_text := strPush s.filter_text c }, true)
    else if c = '1' then ({ s with sort_column := SortColumn.Email, selected_row := 0 }, true)
    else if c = '2' then ({ s with sort_column := SortColumn.Commits, selected_row := 0 }, true)
    else if c = '3' then
      ({ s with sort_column := SortColumn.FirstCommit, selected_row := 0 }, true)
    else if c = '4' then
      ({ s with sort_column := SortColumn.LastCommit, selected_row := 0 }, true)
    else if c = '5' then
      ({ s with sort_column := SortColumn.DaysBetween, selected_row := 0 }, true)
    else if c = 'r' ∨ c = 'R' then
      ({ s with sort_direction :=
          match s.sort_direction with
          | SortDirection.Ascending => SortDirection.Descending
          | SortDirection.Descending => SortDirection.Ascending }, true)
    else (s, true)
  | KeyCode.other => (s, true)

/-- Apply a sequence of key events to a state, keeping the successive
states (the interactive loop feeds each key to `handle_key_event`). -/
def applyKeys (currentYear : Int) (s : AppState) (ks : List KeyCode) : AppState :=
  ks.foldl (fun st k => (AppState.handle_key_event currentYear st k).1) s

/-! ### Concrete fixtures used by counterexamples and witnesses -/

/-- Timeline of author `a@x.com`: one commit on each of two days. -/
def testTimeline : TimelineData :=
  (TimelineData.default.add_commit ⟨2023, 1, 1⟩ 1).add_commit ⟨2023, 1, 2⟩ 1

/-- A small repository with two authors. -/
def testRepo : RepositoryData :=
  { commit_data :=
      [ { email := "a@x.com", commits := 2
          first_commit := ⟨2023, 1, 1⟩, last_commit := ⟨2023, 1, 2⟩ },
        { email := "b@x.com", commits := 1
          first_commit := ⟨2023, 1, 1⟩, last_commit := ⟨2023, 1, 1⟩ } ]
    heatmap_data := HeatMapData.new
    repo_path := "/test/repo"
    author_timeline_data := [("a@x.com", testTimeline)] }

/-- A repository with no commit data at all. -/
def emptyRepo : RepositoryData :=
  { commit_data := []
    heatmap_data := HeatMapData.new
    repo_path := "/test/empty"
    author_timeline_data := [] }

/-! ### Basic lemmas about the association-list operations -/

theorem alInsertAdd_sum : ∀ (l : List (Date × Nat)) (d : Date) (c : Nat),
    sumCounts (alInsertAdd l d c) = sumCounts l + c
  | [], d, c => by simp [alInsertAdd, sumCounts]
  | (k, v) :: rest, d, c => by
    by_cases h : k = d
    · simp only [alInsertAdd, if_pos h, sumCounts, List.map_cons, List.sum_cons]
      omega
    · simp only [alInsertAdd, if_neg h, sumCounts, List.map_cons, List.sum_cons]
      have := alInsertAdd_sum rest d c
      simp only [sumCounts] at this
      omega

theorem alGet_of_not_mem : ∀ (l : List (Date × Nat)) (d : Date),
    (∀ p ∈ l, p.1 ≠ d) → alGet l d = 0
  | [], _, _ => rfl
  | (k, v) :: rest, d, h => by
    have hk : k ≠ d := h (k, v) (List.mem_cons_self _ _)
    simp only [alGet, if_neg hk]
    exact alGet_of_not_mem rest d (fun p hp => h p (List.mem_cons_of_mem _ hp))

/-! ### Sum preservation of the heat-map fold -/

theorem add_commits_sum (h : HeatMapData) (d : Date) (c : Nat) :
    sumCounts (h.add_commits d c).commits_by_date = sumCounts h.commits_by_date + c := by
  simp [HeatMapData.add_commits, alInsertAdd_sum]

theorem foldl_add_commits_sum (g : Date → Date) :
    ∀ (l : List (Date × Nat)) (h : HeatMapData),
      sumCounts ((l.foldl (fun hm p => hm.add_commits (g p.1) p.2) h).commits_by_date)
        = sumCounts h.commits_by_date + sumCounts l
  | [], h => by simp [sumCounts]
  | p :: rest, h => by
    simp only [List.foldl_cons]
    rw [foldl_add_commits_sum g rest (h.add_commits (g p.1) p.2), add_commits_sum]
    simp only [sumCounts, List.map_cons, List.sum_cons]
    omega

theorem foldl_timelines_sum (y : Int) :
    ∀ (tl : List (String × TimelineData)) (h : HeatMapData),
      sumCounts
          ((tl.foldl
              (fun hm p =>
                p.2.commits_by_period.foldl
                  (fun hm2 q => hm2.add_commits (projectDate y q.1) q.2) hm)
              h).commits_by_date)
        = sumCounts h.commits_by_date
            + (tl.map (fun p => sumCounts p.2.commits_by_period)).sum
  | [], h => by simp
  | p :: rest, h => by
    simp only [List.foldl_cons, List.map_cons, List.sum_cons]
    rw [foldl_timelines_sum y rest, foldl_add_commits_sum (projectDate y)]
    omega

/-- The intensity-bucketing rule exactly as the spec's words state it
(§4.2), for comparison with the source's `get_intensity_level`. -/
def specIntensityLevel (max_count c : Nat) : Nat :=
  if c = 0 then 0
  else if max_count ≤ 4 then min c 4
  else
    let q := max_count / 4
    if c ≤ q then 1
    else if c ≤ 2 * q then 2
    else if c ≤ 3 * q then 3
    else 4

/-- **C2**: `get_intensity_level` implements exactly the spec's bucketing
rule — 0 for zero commits, `min c 4` when `max_commits ≤ 4`, and quartile
buckets otherwise — and on a heat map with `max_commits = 20` the counts
0, 3, 7, 12, 18 receive levels 0, 1, 2, 3, 4. -/
theorem C2_intensity_level :
    (∀ (h : HeatMapData) (c : Nat),
        HeatMapData.get_intensity_level h c = specIntensityLevel h.max_commits c) ∧
    ((HeatMapData.add_commits HeatMapData.new ⟨2023, 1, 1⟩ 20).max_commits = 20 ∧
      (HeatMapData.add_commits HeatMapData.new ⟨2023, 1, 1⟩ 20).get_intensity_level 0 = 0 ∧
      (HeatMapData.add_commits HeatMapData.new ⟨2023, 1, 1⟩ 20).get_intensity_level 3 = 1 ∧
      (HeatMapData.add_commits HeatMapData.new ⟨2023, 1, 1⟩ 20).get_intensity_level 7 = 2 ∧
      (HeatMapData.add_commits HeatMapData.new ⟨2023, 1, 1⟩ 20).get_intensity_level 12 = 3 ∧
      (HeatMapData.add_commits HeatMapData.new ⟨2023, 1, 1⟩ 20).get_intensity_level 18 = 4) := by
  constructor
  · intro h c
    unfold HeatMapData.get_intensity_level specIntensityLevel
    dsimp only
    split_ifs <;> first | rfl | omega
  · refine ⟨by decide, by decide, by decide, by decide, by decide, by decide⟩

/-- **C8**: the quit key `q` and Escape make `handle_key_event` report
`continue = false` while returning the state completely unchanged. -/
theorem C8_quit_leaves_state_unchanged : ∀ (y : Int) (s : AppState),
    AppState.handle_key_event y s (KeyCode.Char 'q') = (s, false) ∧
    AppState.handle_key_event y s KeyCode.Esc = (s, false) := by
  intro y s
  exact ⟨rfl, rfl⟩

/-- **C10**: `get_commits` is total and yields 0 on any date that is not a
key of `commits_by_date`, so querying any day of the calendar grid is
defined. -/
theorem C10_get_commits_default_zero : ∀ (h : HeatMapData) (d : Date),
    (∀ p ∈ h.commits_by_date, p.1 ≠ d) → HeatMapData.get_commits h d = 0 := by
  intro h d hmem
  exact alGet_of_not_mem h.commits_by_date d hmem

/-- Witness for C10: querying the empty heat map at a concrete date. -/
theorem C10_witness :
    HeatMapData.get_commits HeatMapData.new ⟨2024, 5, 5⟩ = 0 :=
  C10_get_commits_default_zero HeatMapData.new ⟨2024, 5, 5⟩ (by decide)

/-- **C4**: projecting a timeline onto the reference year maps every
historical date to the reference-year date with the same month and day,
keeps the original historical date when that month/day does not exist in
the reference year, and — because `add_commits` accumulates additively —
the total count of the resulting heat map equals the total count of the
source timeline(s), both for a single timeline and for the global
projection over all authors. -/
theorem C4_projection_preserves_counts :
    (∀ (y : Int) (d : Date),
        (dateValid y d.month d.day = true → projectDate y d = ⟨y, d.month, d.day⟩) ∧
        (dateValid y d.month d.day = false → projectDate y d = d)) ∧
    (∀ (y : Int) (t : TimelineData),
        sumCounts (HeatMapData.create_from_timeline_data y t).commits_by_date
          = sumCounts t.commits_by_period) ∧
    (∀ (y : Int) (tl : List (String × TimelineData)),
        sumCounts (prepare_heatmap_data_from_map y tl).commits_by_date
          = (tl.map (fun p => sumCounts p.2.commits_by_period)).sum) := by
  refine ⟨?_, ?_, ?_⟩
  · intro y d
    constructor
    · intro hv
      simp [projectDate, from_ymd_opt, hv]
    · intro hv
      simp [projectDate, from_ymd_opt, hv]
  · intro y t
    unfold HeatMapData.create_from_timeline_data
    rw [foldl_add_commits_sum (projectDate y) t.commits_by_period HeatMapData.new]
    simp [HeatMapData.new, sumCounts]
  · intro y tl
    unfold prepare_heatmap_data_from_map
    rw [foldl_timelines_sum y tl HeatMapData.new]
    simp [HeatMapData.new, sumCounts]

/-- Witness for C4: Feb 29 of 2020 projected onto the non-leap reference
year 2025 keeps its original date, while Jan 15 is remapped; a two-day
timeline keeps its total of 3 commits. -/
theorem C4_witness :
    (dateValid 2025 2 29 = false ∧
      projectDate 2025 (⟨2020, 2, 29⟩ : Date) = ⟨2020, 2, 29⟩) ∧
    (dateValid 2025 1 15 = true ∧
      projectDate 2025 (⟨2020, 1, 15⟩ : Date) = ⟨2025, 1, 15⟩) ∧
    sumCounts (HeatMapData.create_from_timeline_data 2025
        ((TimelineData.default.add_commit ⟨2020, 2, 29⟩ 2).add_commit ⟨2020, 1, 15⟩ 1)
      ).commits_by_date
      = sumCounts ((TimelineData.default.add_commit ⟨2020, 2, 29⟩ 2).add_commit
          ⟨2020, 1, 15⟩ 1).commits_by_period :=
  ⟨⟨by decide, (C4_projection_preserves_counts.1 2025 ⟨2020, 2, 29⟩).2 (by decide)⟩,
   ⟨by decide, (C4_projection_preserves_counts.1 2025 ⟨2020, 1, 15⟩).1 (by decide)⟩,
   C4_projection_preserves_counts.2.1 2025
     ((TimelineData.default.add_commit ⟨2020, 2, 29⟩ 2).add_commit ⟨2020, 1, 15⟩ 1)⟩

/-! ### C5: the `max_events` cap of the aggregation loop -/

theorem collect_eq_take :
    ∀ (config : RepositoryConfig) (m : Nat) (events : List RawEvent) (p : Nat),
      config.max_commits = some m →
      collect_commit_info_polars config events p
        = (events.filterMap (qualifies config)).take (m - p)
  | config, m, [], p, _ => by
    simp [collect_commit_info_polars]
  | config, m, e :: rest, p, h => by
    simp only [collect_commit_info_polars, capReached, h]
    by_cases hc : m ≤ p
    · have hmp : m - p = 0 := by omega
      simp [hc, hmp]
    · rw [if_neg (by simpa using hc)]
      cases hq : qualifies config e with
      | none =>
        simp only [List.filterMap_cons, hq]
        exact collect_eq_take config m rest p h
      | some q =>
        simp only [List.filterMap_cons, hq]
        have hmp : m - p = (m - (p + 1)) + 1 := by omega
        rw [hmp, List.take_succ_cons, collect_eq_take config m rest (p + 1) h]

theorem collect_eq_filterMap :
    ∀ (config : RepositoryConfig) (events : List RawEvent) (p : Nat),
      config.max_commits = none →
      collect_commit_info_polars config events p = events.filterMap (qualifies config)
  | config, [], p, _ => by simp [collect_commit_info_polars]
  | config, e :: rest, p, h => by
    simp only [collect_commit_info_polars, capReached, h]
    cases hq : qualifies config e with
    | none =>
      simp only [List.filterMap_cons, hq]
      exact collect_eq_filterMap config rest p h
    | some q =>
      simp only [List.filterMap_cons, hq]
      rw [collect_eq_filterMap config rest (p + 1) h]
      simp

/-- **C5**: the aggregation loop consumes events in stream order, counts
only qualifying events toward the `max_events` cap (events outside the
date range or without resolvable author/timestamp are skipped without
counting), and stops as soon as the cap is reached: the rows it collects
are exactly the first `max_events` entries of the qualifying-event stream.
With `max_events = 1` and two qualifying events, only the first is
counted. -/
theorem C5_cap_short_circuit :
    (∀ (config : RepositoryConfig) (events : List RawEvent),
        collect_commit_info_polars config events 0 =
          match config.max_commits with
          | some m => (events.filterMap (qualifies config)).take m
          | none => events.filterMap (qualifies config)) ∧
    (collect_commit_info_polars ⟨some 1, none, none⟩
        [⟨some "a", some ⟨2023, 1, 1⟩⟩, ⟨some "b", some ⟨2023, 1, 2⟩⟩] 0
      = [("a", ⟨2023, 1, 1⟩)]) := by
  constructor
  · intro config events
    cases hm : config.max_commits with
    | none => simp [collect_eq_filterMap config events 0 hm]
    | some m =>
      have := collect_eq_take config m events 0 hm
      simpa using this
  · decide

/-! ### C6: the timeline total/sum invariant -/

theorem add_commit_preserves_inv (t : TimelineData) (d : Date) (c : Nat)
    (h : t.total_commits = sumCounts t.commits_by_period) :
    (t.add_commit d c).total_commits = sumCounts (t.add_commit d c).commits_by_period := by
  simp [TimelineData.add_commit, alInsertAdd_sum, h]

theorem foldl_add_commit_preserves_inv :
    ∀ (ops : List (Date × Nat)) (t : TimelineData),
      t.total_commits = sumCounts t.commits_by_period →
      (ops.foldl (fun t p => t.add_commit p.1 p.2) t).total_commits
        = sumCounts (ops.foldl (fun t p => t.add_commit p.1 p.2) t).commits_by_period
  | [], t, h => h
  | p :: rest, t, h => by
    simp only [List.foldl_cons]
    exact foldl_add_commit_preserves_inv rest _ (add_commit_preserves_inv t p.1 p.2 h)

theorem alUpdateT_preserves_all (P : TimelineData → Prop)
    (f : TimelineData → TimelineData)
    (hd : P (f TimelineData.default)) (hf : ∀ t, P t → P (f t)) :
    ∀ (l : List (String × TimelineData)) (k : String),
      (∀ p ∈ l, P p.2) → ∀ p ∈ alUpdateT l k f, P p.2
  | [], k, _, p, hp => by
    simp only [alUpdateT, List.mem_singleton] at hp
    rw [hp]
    exact hd
  | (k', v) :: rest, k, hall, p, hp => by
    by_cases hk : k' = k
    · simp only [alUpdateT, if_pos hk, List.mem_cons] at hp
      rcases hp with hp | hp
      · rw [hp]
        exact hf v (hall (k', v) (List.mem_cons_self _ _))
      · exact hall p (List.mem_cons_of_mem _ hp)
    · simp only [alUpdateT, if_neg hk, List.mem_cons] at hp
      rcases hp with hp | hp
      · rw [hp]
        exact hall (k', v) (List.mem_cons_self _ _)
      · exact alUpdateT_preserves_all P f hd hf rest k
          (fun q hq => hall q (List.mem_cons_of_mem _ hq)) p hp

theorem convert_preserves_all (P : TimelineData → Prop)
    (hd : P TimelineData.default)
    (hstep : ∀ (t : TimelineData) (d : Date) (c : Nat), P t → P (t.add_commit d c)) :
    ∀ (rows : List (String × Date × Nat)) (m : List (String × TimelineData)),
      (∀ p ∈ m, P p.2) →
      ∀ p ∈ rows.foldl
          (fun m r => alUpdateT m r.1 (fun t => t.add_commit r.2.1 r.2.2)) m,
        P p.2
  | [], m, hall, p, hp => hall p hp
  | r :: rest, m, hall, p, hp => by
    simp only [List.foldl_cons] at hp
    exact convert_preserves_all P hd hstep rest _
      (alUpdateT_preserves_all P _ (hstep _ _ _ hd) (fun t ht => hstep t _ _ ht) m r.1 hall)
      p hp

theorem alFind_mem {α : Type} : ∀ (l : List (String × α)) (k : String) (v : α),
    alFind l k = some v → ∃ k', (k', v) ∈ l
  | [], k, v, h => by simp [alFind] at h
  | (k', v') :: rest, k, v, h => by
    by_cases hk : k' = k
    · simp only [alFind, if_pos hk, Option.some.injEq] at h
      exact ⟨k', by rw [h]; exact List.mem_cons_self _ _⟩
    · simp only [alFind, if_neg hk] at h
      obtain ⟨k'', hk''⟩ := alFind_mem rest k v h
      exact ⟨k'', List.mem_cons_of_mem _ hk''⟩

/-- **C6**: every `TimelineData` built from the default state by a finite
sequence of `add_commit` calls satisfies `total_commits = Σ counts`, and in
particular every per-author timeline produced by
`convert_timeline_df_to_timeline_data_map` satisfies it. -/
theorem C6_total_equals_sum :
    (∀ ops : List (Date × Nat),
        (ops.foldl (fun t p => t.add_commit p.1 p.2) TimelineData.default).total_commits
          = sumCounts
              (ops.foldl (fun t p => t.add_commit p.1 p.2)
                TimelineData.default).commits_by_period) ∧
    (∀ (rows : List (String × Date × Nat)) (e : String) (t : TimelineData),
        alFind (convert_timeline_df_to_timeline_data_map rows) e = some t →
        t.total_commits = sumCounts t.commits_by_period) := by
  constructor
  · intro ops
    exact foldl_add_commit_preserves_inv ops TimelineData.default rfl
  · intro rows e t hfind
    obtain ⟨k, hk⟩ := alFind_mem _ e t hfind
    exact convert_preserves_all
      (fun t => t.total_commits = sumCounts t.commits_by_period) rfl
      (fun t d c ht => add_commit_preserves_inv t d c ht)
      rows [] (by simp) (k, t) hk

/-- Witness for C6: a two-row grouped frame for one author yields a cached
timeline satisfying the invariant. -/
theorem C6_witness :
    ((TimelineData.default.add_commit ⟨2023, 1, 1⟩ 3).add_commit ⟨2023, 1, 2⟩ 4).total_commits
      = sumCounts ((TimelineData.default.add_commit ⟨2023, 1, 1⟩ 3).add_commit
          ⟨2023, 1, 2⟩ 4).commits_by_period :=
  C6_total_equals_sum.2 [("a", ⟨2023, 1, 1⟩, 3), ("a", ⟨2023, 1, 2⟩, 4)] "a" _ (by decide)

/-! ### C7: memoization of the per-author heat-map cache -/

/-- **C7**: `get_or_create_author_heatmap` is the single memoization point:
if the identity is already cached, it returns the stored entry and leaves
the state untouched; on a cache miss it inserts the heat map computed from
the author's timeline (or an empty heat map when no timeline exists) once;
and in all cases a second call in succession returns the identical cached
value and the identical state. -/
theorem C7_heatmap_memoization :
    ∀ (y : Int) (s : AppState) (e : String),
      ((AppState.get_or_create_author_heatmap y
          (AppState.get_or_create_author_heatmap y s e).1 e)
        = ((AppState.get_or_create_author_heatmap y s e).1,
            (AppState.get_or_create_author_heatmap y s e).2)) ∧
      (alFind (AppState.get_or_create_author_heatmap y s e).1.author_heatmap_data e
        = some (AppState.get_or_create_author_heatmap y s e).2) ∧
      (alFind s.author_heatmap_data e = none →
        (AppState.get_or_create_author_heatmap y s e).2 =
          (match alFind s.repository_data.author_timeline_data e with
           | some tl => HeatMapData.create_from_timeline_data y tl
           | none => HeatMapData.new)) ∧
      (∀ h, alFind s.author_heatmap_data e = some h →
        AppState.get_or_create_author_heatmap y s e = (s, h)) := by
  intro y s e
  have hcached : ∀ h, alFind s.author_heatmap_data e = some h →
      AppState.get_or_create_author_heatmap y s e = (s, h) := by
    intro h hf
    unfold AppState.get_or_create_author_heatmap
    simp [hf]
  have hfind : alFind (AppState.get_or_create_author_heatmap y s e).1.author_heatmap_data e
      = some (AppState.get_or_create_author_heatmap y s e).2 := by
    unfold AppState.get_or_create_author_heatmap
    cases hf : alFind s.author_heatmap_data e with
    | some h => simp [hf]
    | none =>
      cases htl : alFind s.repository_data.author_timeline_data e with
      | some tl => simp [hf, htl, alFind]
      | none => simp [hf, htl, alFind]
  refine ⟨?_, hfind, ?_, hcached⟩
  · have := hcached
    rcases hsnd : AppState.get_or_create_author_heatmap y s e with ⟨s1, h1⟩
    have hf1 : alFind s1.author_heatmap_data e = some h1 := by
      have := hfind
      rw [hsnd] at this
      exact this
    unfold AppState.get_or_create_author_heatmap
    simp [hf1]
  · intro hmiss
    unfold AppState.get_or_create_author_heatmap
    cases htl : alFind s.repository_data.author_timeline_data e with
    | some tl => simp [hmiss, htl, alFind]
    | none => simp [hmiss, htl, alFind]

/-- Witness for C7: calling the accessor twice on a freshly created state
for an author that has a stored timeline. -/
theorem C7_witness :
    (AppState.get_or_create_author_heatmap 2026
        (AppState.get_or_create_author_heatmap 2026 (AppState.new testRepo) "a@x.com").1
        "a@x.com"
      = ((AppState.get_or_create_author_heatmap 2026 (AppState.new testRepo) "a@x.com").1,
          (AppState.get_or_create_author_heatmap 2026 (AppState.new testRepo) "a@x.com").2)) ∧
    ((AppState.get_or_create_author_heatmap 2026 (AppState.new testRepo) "a@x.com").2
      = HeatMapData.create_from_timeline_data 2026 testTimeline) :=
  ⟨(C7_heatmap_memoization 2026 (AppState.new testRepo) "a@x.com").1,
    by
      have := (C7_heatmap_memoization 2026 (AppState.new testRepo) "a@x.com").2.2.1
        (by decide)
      simpa using this⟩

/-! ### C9: Enter with an out-of-range selection is a no-op -/

/-- **C9**: outside search mode, when the filtered-and-sorted view is empty
or `selected_row` is past its end, Enter leaves the whole state unchanged
(in particular `selected_author` and the heat-map cache) and reports
`continue = true`. -/
theorem C9_enter_out_of_range_noop : ∀ (y : Int) (s : AppState),
    s.show_search = false →
    (AppState.sorted_data s).length ≤ s.selected_row →
    AppState.handle_key_event y s KeyCode.Enter = (s, true) := by
  intro y s hss hlen
  have hget : (AppState.sorted_data s)[s.selected_row]? = none :=
    List.getElem?_eq_none hlen
  simp [AppState.handle_key_event, hss, hget]

/-- Witness for C9: Enter on the initial state of an empty repository. -/
theorem C9_witness :
    AppState.handle_key_event 2026 (AppState.new emptyRepo) KeyCode.Enter
      = (AppState.new emptyRepo, true) :=
  C9_enter_out_of_range_noop 2026 (AppState.new emptyRepo) (by decide) (by decide)

/-! ### C3: search-mode editing (corrected) -/

/-- A concrete state sitting in search mode with filter text `"a"`. -/
def searchState : AppState :=
  { AppState.new testRepo with show_search := true, filter_text := "a" }

/-- **C3 counterexample**: in search mode the printable character `/` does
not append to the filter text — the `Char('/')` match arm precedes the
generic character arm, so it clears the filter instead: from filter text
`"a"`, pressing `/` yields `""`, not `"a/"`. -/
theorem C3_counterexample :
    ¬ ((AppState.handle_key_event 2026 searchState (KeyCode.Char '/')).1.filter_text
        = strPush searchState.filter_text '/') := by decide

/-- **C3 (amended)**: while in search mode, any printable character other
than `q` and `/` appends to the filter text; Backspace removes the last
character and is a no-op on an empty filter; Enter leaves search mode
keeping the accumulated filter.  The two exceptions forced by the arm
order of the source `match`: `q` quits with the state unchanged, and `/`
restarts search mode with a cleared filter. -/
theorem C3_search_mode_editing : ∀ (y : Int) (s : AppState),
    s.show_search = true →
    (∀ c : Char, c ≠ 'q' → c ≠ '/' →
        (AppState.handle_key_event y s (KeyCode.Char c)).1.filter_text
          = strPush s.filter_text c) ∧
    ((AppState.handle_key_event y s KeyCode.Backspace).1.filter_text
        = strPop s.filter_text) ∧
    (s.filter_text = "" →
        (AppState.handle_key_event y s KeyCode.Backspace).1 = s) ∧
    ((AppState.handle_key_event y s KeyCode.Enter).1.show_search = false ∧
      (AppState.handle_key_event y s KeyCode.Enter).1.filter_text = s.filter_text) ∧
    (AppState.handle_key_event y s (KeyCode.Char 'q') = (s, false)) ∧
    ((AppState.handle_key_event y s (KeyCode.Char '/')).1.filter_text = "" ∧
      (AppState.handle_key_event y s (KeyCode.Char '/')).1.show_search = true) := by
  intro y s hss
  refine ⟨?_, ?_, ?_, ?_, rfl, by simp [AppState.handle_key_event]⟩
  · intro c hq hsl
    simp [AppState.handle_key_event, hq, hsl, hss]
  · simp [AppState.handle_key_event, hss]
  · intro hft
    have hpop : strPop s.filter_text = s.filter_text := by rw [hft]; rfl
    simp [AppState.handle_key_event, hss, hpop]
    rw [← hss]
  · simp [AppState.handle_key_event, hss]

/-- Witness for C3: in `searchState`, the character `l` appends, Backspace
pops, and Enter exits search mode keeping the filter. -/
theorem C3_witness :
    ((AppState.handle_key_event 2026 searchState (KeyCode.Char 'l')).1.filter_text
        = strPush searchState.filter_text 'l') ∧
    ((AppState.handle_key_event 2026 searchState KeyCode.Enter).1.show_search = false ∧
      (AppState.handle_key_event 2026 searchState KeyCode.Enter).1.filter_text
        = searchState.filter_text) :=
  ⟨(C3_search_mode_editing 2026 searchState rfl).1 'l' (by decide) (by decide),
    (C3_search_mode_editing 2026 searchState rfl).2.2.2.1⟩

/-! ### C1: the selected-row invariant of the view state -/

theorem sortInsert_length (le : CommitData → CommitData → Bool) (a : CommitData) :
    ∀ l : List CommitData, (sortInsert le a l).length = l.length + 1
  | [] => rfl
  | b :: bs => by
    by_cases h : le a b
    · simp [sortInsert, h]
    · simp [sortInsert, h, sortInsert_length le a bs]

theorem stableSort_length (le : CommitData → CommitData → Bool) :
    ∀ l : List CommitData, (stableSort le l).length = l.length
  | [] => rfl
  | a :: as => by
    simp [stableSort, sortInsert_length, stableSort_length le as]

/-- Length of the current filtered-and-sorted view. -/
def viewLen (s : AppState) : Nat := (AppState.sorted_data s).length

theorem viewLen_eq_filtered (s : AppState) :
    viewLen s = (AppState.filtered_data s).length :=
  stableSort_length _ _

theorem viewLen_congr (s' s : AppState)
    (h1 : s'.repository_data = s.repository_data)
    (h2 : s'.filter_text = s.filter_text) : viewLen s' = viewLen s := by
  rw [viewLen_eq_filtered, viewLen_eq_filtered]
  unfold AppState.filtered_data
  rw [h1, h2]

theorem isPrefixOf_mono {p' p l : List Char} (h : p' <+: p)
    (hp : p.isPrefixOf l = true) : p'.isPrefixOf l = true := by
  rw [List.isPrefixOf_iff_prefix] at hp ⊢
  exact h.trans hp

theorem listIsInfixOf_mono {p' p : List Char} (h : p' <+: p) :
    ∀ l : List Char, listIsInfixOf p l = true → listIsInfixOf p' l = true
  | [], hp => by
    simp only [listIsInfixOf] at hp ⊢
    exact isPrefixOf_mono h hp
  | c :: rest, hp => by
    simp only [listIsInfixOf, Bool.or_eq_true] at hp ⊢
    rcases hp with h1 | h2
    · exact Or.inl (isPrefixOf_mono h h1)
    · exact Or.inr (listIsInfixOf_mono h rest h2)

theorem passesFilter_pop (ft : String) (d : CommitData)
    (h : passesFilter ft d = true) : passesFilter (strPop ft) d = true := by
  by_cases hft : ft = ""
  · subst hft
    exact h
  · by_cases hft' : strPop ft = ""
    · simp [passesFilter, hft']
    · simp only [passesFilter, if_neg hft] at h
      simp only [passesFilter, if_neg hft']
      have hpre : (strToLower (strPop ft)).data <+: (strToLower ft).data := by
        show (ft.data.dropLast.map Char.toLower) <+: (ft.data.map Char.toLower)
        rw [List.map_dropLast]
        exact List.dropLast_prefix _
      exact listIsInfixOf_mono hpre _ h

theorem filter_length_mono {α : Type} {p q : α → Bool}
    (h : ∀ a, p a = true → q a = true) (l : List α) :
    (l.filter p).length ≤ (l.filter q).length :=
  (List.monotone_filter_right l h).length_le

/-- The claimed invariant: `selected_row` indexes into the current
filtered-and-sorted view, or is 0 when that view is empty. -/
def viewInv (s : AppState) : Prop :=
  s.selected_row < viewLen s ∨ (viewLen s = 0 ∧ s.selected_row = 0)

theorem viewInv_mono {s s' : AppState}
    (hlen : viewLen s ≤ viewLen s')
    (hrow : s'.selected_row ≤ s.selected_row)
    (h : viewInv s) : viewInv s' := by
  unfold viewInv at h ⊢
  omega

theorem viewInv_same (s s' : AppState)
    (h1 : s'.repository_data = s.repository_data)
    (h2 : s'.filter_text = s.filter_text)
    (hrow : s'.selected_row ≤ s.selected_row)
    (h : viewInv s) : viewInv s' :=
  viewInv_mono (viewLen_congr s' s h1 h2).ge hrow h

/-- A key is "safe" for the invariant when it is not a printable character
typed in search mode (those extend the filter text and may shrink the
view); `q` and `/` are safe even in search mode since they quit or clear
the filter. -/
def safeKey (s : AppState) (k : KeyCode) : Bool :=
  match k with
  | KeyCode.Char c => !s.show_search || c == 'q' || c == '/'
  | _ => true

/-- A key sequence is safe when each key is safe for the state it is
applied to. -/
def SafeTrace (y : Int) : AppState → List KeyCode → Prop
  | _, [] => True
  | s, k :: ks =>
    safeKey s k = true ∧ SafeTrace y ((AppState.handle_key_event y s k).1) ks

theorem goc_fst_eq (y : Int) (s : AppState) (e : String) :
    ∃ m, (AppState.get_or_create_author_heatmap y s e).1
        = { s with author_heatmap_data := m } := by
  unfold AppState.get_or_create_author_heatmap
  by_cases hf : (alFind s.author_heatmap_data e).isSome
  · exact ⟨s.author_heatmap_data, by simp [hf]⟩
  · cases htl : alFind s.repository_data.author_timeline_data e with
    | some tl =>
      exact ⟨(e, HeatMapData.create_from_timeline_data y tl) :: s.author_heatmap_data,
        by simp [hf, htl]⟩
    | none =>
      exact ⟨(e, HeatMapData.new) :: s.author_heatmap_data, by simp [hf, htl]⟩

theorem step_preserves_viewInv (y : Int) (s : AppState) (k : KeyCode)
    (hs : viewInv s) (hk : safeKey s k = true) :
    viewInv ((AppState.handle_key_event y s k).1) := by
  cases k with
  | Esc => exact hs
  | other => exact hs
  | Up =>
    by_cases h0 : s.selected_row > 0
    · have hst : (AppState.handle_key_event y s KeyCode.Up).1
          = { s with selected_row := s.selected_row - 1 } := by
        simp [AppState.handle_key_event, h0]
      rw [hst]
      exact viewInv_same s _ rfl rfl (Nat.sub_le _ _) hs
    · have hst : (AppState.handle_key_event y s KeyCode.Up).1 = s := by
        simp [AppState.handle_key_event, h0]
      rw [hst]
      exact hs
  | Down =>
    by_cases h0 : s.selected_row < (AppState.sorted_data s).length - 1
    · have hst : (AppState.handle_key_event y s KeyCode.Down).1
          = { s with selected_row := s.selected_row + 1 } := by
        simp [AppState.handle_key_event, h0]
      rw [hst]
      have hlen : viewLen { s with selected_row := s.selected_row + 1 } = viewLen s :=
        viewLen_congr _ _ rfl rfl
      unfold viewInv
      rw [hlen]
      dsimp only
      left
      have hv : viewLen s = (AppState.sorted_data s).length := rfl
      omega
    · have hst : (AppState.handle_key_event y s KeyCode.Down).1 = s := by
        simp [AppState.handle_key_event, h0]
      rw [hst]
      exact hs
  | Enter =>
    by_cases hss : s.show_search
    · have hst : (AppState.handle_key_event y s KeyCode.Enter).1
          = { s with show_search := false } := by
        simp [AppState.handle_key_event, hss]
      rw [hst]
      exact viewInv_same s _ rfl rfl le_rfl hs
    · cases hget : (AppState.sorted_data s)[s.selected_row]? with
      | none =>
        have hst : (AppState.handle_key_event y s KeyCode.Enter).1 = s := by
          simp [AppState.handle_key_event, hss, hget]
        rw [hst]
        exact hs
      | some cd =>
        obtain ⟨m, hm⟩ := goc_fst_eq y s cd.email
        cases hsa : s.selected_author with
        | none =>
          have hst : (AppState.handle_key_event y s KeyCode.Enter).1
              = { (AppState.get_or_create_author_heatmap y s cd.email).1 with
                  selected_author := some cd.email } := by
            simp [AppState.handle_key_event, hss, hget, hsa]
          rw [hst, hm]
          exact viewInv_same s _ rfl rfl le_rfl hs
        | some cur =>
          by_cases hce : cur = cd.email
          · have hst : (AppState.handle_key_event y s KeyCode.Enter).1
                = { s with selected_author := none } := by
              simp [AppState.handle_key_event, hss, hget, hsa, hce]
            rw [hst]
            exact viewInv_same s _ rfl rfl le_rfl hs
          · have hst : (AppState.handle_key_event y s KeyCode.Enter).1
                = { (AppState.get_or_create_author_heatmap y s cd.email).1 with
                    selected_author := some cd.email } := by
              simp [AppState.handle_key_event, hss, hget, hsa, hce]
            rw [hst, hm]
            exact viewInv_same s _ rfl rfl le_rfl hs
  | Backspace =>
    by_cases hss : s.show_search
    · have hst : (AppState.handle_key_event y s KeyCode.Backspace).1
          = { s with filter_text := strPop s.filter_text } := by
        simp [AppState.handle_key_event, hss]
      rw [hst]
      refine @viewInv_mono s _ ?_ ?_ hs
      · rw [viewLen_eq_filtered, viewLen_eq_filtered]
        show (s.repository_data.commit_data.filter (passesFilter s.filter_text)).length
          ≤ (s.repository_data.commit_data.filter (passesFilter (strPop s.filter_text))).length
        exact filter_length_mono (fun d => passesFilter_pop s.filter_text d) _
      · exact le_rfl
    · have hst : (AppState.handle_key_event y s KeyCode.Backspace).1 = s := by
        simp [AppState.handle_key_event, hss]
      rw [hst]
      exact hs
  | Char c =>
    by_cases hq : c = 'q'
    · have hst : (AppState.handle_key_event y s (KeyCode.Char c)).1 = s := by
        simp [AppState.handle_key_event, hq]
      rw [hst]
      exact hs
    · by_cases hsl : c = '/'
      · have hst : (AppState.handle_key_event y s (KeyCode.Char c)).1
            = { s with show_search := true, filter_text := "" } := by
          simp [AppState.handle_key_event, hq, hsl]
        rw [hst]
        refine @viewInv_mono s _ ?_ ?_ hs
        · rw [viewLen_eq_filtered, viewLen_eq_filtered]
          show (s.repository_data.commit_data.filter (passesFilter s.filter_text)).length
            ≤ (s.repository_data.commit_data.filter (passesFilter "")).length
          have hall : s.repository_data.commit_data.filter (passesFilter "")
              = s.repository_data.commit_data :=
            List.filter_eq_self.mpr (fun a _ => by simp [passesFilter])
          rw [hall]
          exact List.length_filter_le _ _
        · exact le_rfl
      · by_cases hss : s.show_search
        · exfalso
          simp [safeKey, hss, hq, hsl] at hk
        · by_cases h1 : c = '1'
          · have hst : (AppState.handle_key_event y s (KeyCode.Char c)).1
                = { s with sort_column := SortColumn.Email, selected_row := 0 } := by
              simp [AppState.handle_key_event, hq, hsl, hss, h1]
            rw [hst]
            exact viewInv_same s _ rfl rfl (Nat.zero_le _) hs
          · by_cases h2 : c = '2'
            · have hst : (AppState.handle_key_event y s (KeyCode.Char c)).1
                  = { s with sort_column := SortColumn.Commits, selected_row := 0 } := by
                simp [AppState.handle_key_event, hq, hsl, hss, h1, h2]
              rw [hst]
              exact viewInv_same s _ rfl rfl (Nat.zero_le _) hs
            · by_cases h3 : c = '3'
              · have hst : (AppState.handle_key_event y s (KeyCode.Char c)).1
                    = { s with sort_column := SortColumn.FirstCommit, selected_row := 0 } := by
                  simp [AppState.handle_key_event, hq, hsl, hss, h1, h2, h3]
                rw [hst]
                exact viewInv_same s _ rfl rfl (Nat.zero_le _) hs
              · by_cases h4 : c = '4'
                · have hst : (AppState.handle_key_event y s (KeyCode.Char c)).1
                      = { s with sort_column := SortColumn.LastCommit, selected_row := 0 } := by
                    simp [AppState.handle_key_event, hq, hsl, hss, h1, h2, h3, h4]
                  rw [hst]
                  exact viewInv_same s _ rfl rfl (Nat.zero_le _) hs
                · by_cases h5 : c = '5'
                  · have hst : (AppState.handle_key_event y s (KeyCode.Char c)).1
                        = { s with sort_column := SortColumn.DaysBetween, selected_row := 0 } := by
                      simp [AppState.handle_key_event, hq, hsl, hss, h1, h2, h3, h4, h5]
                    rw [hst]
                    exact viewInv_same s _ rfl rfl (Nat.zero_le _) hs
                  · by_cases hr : c = 'r' ∨ c = 'R'
                    · have hst : (AppState.handle_key_event y s (KeyCode.Char c)).1
                          = { s with sort_direction :=
                              (match s.sort_direction with
                              | SortDirection.Ascending => SortDirection.Descending
                              | SortDirection.Descending => SortDirection.Ascending) } := by
                        simp [AppState.handle_key_event, hq, hsl, hss, h1, h2, h3, h4, h5, hr]
                      rw [hst]
                      exact viewInv_same s _ rfl rfl le_rfl hs
                    · have hst : (AppState.handle_key_event y s (KeyCode.Char c)).1 = s := by
                        simp [AppState.handle_key_event, hq, hsl, hss, h1, h2, h3, h4, h5, hr]
                      rw [hst]
                      exact hs

theorem trace_preserves_viewInv (y : Int) :
    ∀ (ks : List KeyCode) (s : AppState),
      viewInv s → SafeTrace y s ks → viewInv (applyKeys y s ks)
  | [], _, h, _ => h
  | k :: ks, s, h, ht =>
    trace_preserves_viewInv y ks _ (step_preserves_viewInv y s k h ht.1) ht.2

theorem viewInv_new (repo : RepositoryData) : viewInv (AppState.new repo) := by
  unfold viewInv
  have h0 : (AppState.new repo).selected_row = 0 := rfl
  omega

/-- **C1 counterexample**: from the initial state over a two-author
repository, the key sequence Down, `/`, `z` shrinks the filtered view to
empty while `selected_row` stays 1, so the claimed invariant
(`selected_row < len(sorted_data())`, or `selected_row = 0` on an empty
view) fails after a search-mode character input. -/
theorem C1_counterexample :
    ¬ ((applyKeys 2026 (AppState.new testRepo)
          [KeyCode.Down, KeyCode.Char '/', KeyCode.Char 'z']).selected_row
        < (AppState.sorted_data (applyKeys 2026 (AppState.new testRepo)
            [KeyCode.Down, KeyCode.Char '/', KeyCode.Char 'z'])).length ∨
      ((AppState.sorted_data (applyKeys 2026 (AppState.new testRepo)
            [KeyCode.Down, KeyCode.Char '/', KeyCode.Char 'z'])).length = 0 ∧
        (applyKeys 2026 (AppState.new testRepo)
          [KeyCode.Down, KeyCode.Char '/', KeyCode.Char 'z']).selected_row = 0)) := by
  decide

/-- **C1 (amended)**: for every sequence of key inputs from the initial
state in which no printable character other than `q` or `/` is entered
while search mode is active (so the filter text is never extended),
`selected_row` stays a valid index into the current filtered-and-sorted
view, or 0 when that view is empty.  Up always moves `selected_row` down
by exactly one clamped at 0, and Down moves it up by exactly one clamped
at `len(sorted_data()) - 1` whenever the invariant holds — never
wrapping.  Extending the filter in search mode can shrink the view below
`selected_row`, which is the one violation of the claimed invariant. -/
theorem C1_selected_row_invariant :
    (∀ (y : Int) (repo : RepositoryData) (ks : List KeyCode),
        SafeTrace y (AppState.new repo) ks →
        viewInv (applyKeys y (AppState.new repo) ks)) ∧
    (∀ (y : Int) (s : AppState),
        ((AppState.handle_key_event y s KeyCode.Up).1).selected_row
          = s.selected_row - 1) ∧
    (∀ (y : Int) (s : AppState), s.selected_row < viewLen s →
        ((AppState.handle_key_event y s KeyCode.Down).1).selected_row
          = min (s.selected_row + 1) (viewLen s - 1)) := by
  refine ⟨?_, ?_, ?_⟩
  · intro y repo ks hsafe
    exact trace_preserves_viewInv y ks (AppState.new repo) (viewInv_new repo) hsafe
  · intro y s
    by_cases h0 : s.selected_row > 0
    · simp [AppState.handle_key_event, h0]
    · simp [AppState.handle_key_event, h0]
      omega
  · intro y s hrow
    have hv : viewLen s = (AppState.sorted_data s).length := rfl
    by_cases h0 : s.selected_row < (AppState.sorted_data s).length - 1
    · simp [AppState.handle_key_event, h0]
      omega
    · simp [AppState.handle_key_event, h0]
      omega

/-- Witness for C1: on the two-author repository, the safe trace
[Down] keeps the invariant; Up from the initial state clamps at 0; Down
from the initial state moves the selection to row 1. -/
theorem C1_witness :
    viewInv (applyKeys 2026 (AppState.new testRepo) [KeyCode.Down]) ∧
    ((AppState.handle_key_event 2026 (AppState.new testRepo) KeyCode.Up).1).selected_row
      = (AppState.new testRepo).selected_row - 1 ∧
    ((AppState.handle_key_event 2026 (AppState.new testRepo) KeyCode.Down).1).selected_row
      = min ((AppState.new testRepo).selected_row + 1) (viewLen (AppState.new testRepo) - 1) :=
  ⟨C1_selected_row_invariant.1 2026 testRepo [KeyCode.Down] ⟨by decide, trivial⟩,
    C1_selected_row_invariant.2.1 2026 (AppState.new testRepo),
    C1_selected_row_invariant.2.2 2026 (AppState.new testRepo) (by decide)⟩

end GitMeta
